import Mathlib

/-!
Verification development for the fairseq-context repository.

The development shallowly embeds the core components of the repository:

* `src/code2seq_to_fairseq.py` — the preprocessing converter that turns raw
  code2seq records into four aligned per-example token files (modelled over
  `List Char` so that Python string splitting/joining is fully executable);
* `src/fairseq/data/language_pair_with_multi_context_dataset.py` — the
  dataset accessor that splits the leaf stream into start/end leaves;
* `src/fairseq/models/fconv.py` — `FConvContextEncoder.forward` and the
  `Code2SeqEncoder` (delimiter location, cross-stream validation,
  `_split_seq`, `_truncate_seqs`, masked leaf sums, length sort/unsort, and
  the per-example aggregation loop).

Token ids are integers, tensors are lists (of lists), and real-valued
vectors are lists of rationals.  Learned components (embedding tables, the
bidirectional LSTM final states, and the fused linear+tanh projection) are
parameters of the embedding, because the claims under verification never
depend on their internal arithmetic, only on how the code routes data
through them.
-/

/-- Real-valued vectors (tensor rows) are lists of rationals. -/
abbrev Vec := List ℚ

/-- The all-zero vector of width `d` (`torch.zeros(d)`). -/
def zeroVec (d : ℕ) : Vec := List.replicate d 0

/-- Elementwise vector addition. -/
def vadd (v w : Vec) : Vec := List.zipWith (· + ·) v w

/-- Elementwise division of a vector by a scalar (`tensor / c`). -/
def vdiv (v : Vec) (c : ℚ) : Vec := v.map (· / c)

/-- Sum of the rows `a, a+1, …, b-1` of the flat row list `z`
(`torch.sum(z[a:b, :], 0)` for a tensor whose rows have width `d`). -/
def sliceSum (d : ℕ) (z : List Vec) (a b : ℕ) : Vec :=
  ((z.drop a).take (b - a)).foldr vadd (zeroVec d)

/-! ## StreamPreprocessor: `code2seq_to_fairseq.py`

A raw line is a `List Char`.  `splitOnSep` mirrors Python `str.split(c)`
(single-character separator, empty fields kept), `trimWs` mirrors
`str.strip()`, and `joinSep` mirrors `c.join(...)`. -/

/-- Python `s.split(sep)` for a single-character separator: splits on every
occurrence and keeps empty fields. -/
def splitOnSep (sep : Char) (s : List Char) : List (List Char) :=
  s.foldr
    (fun c acc =>
      match acc with
      | [] => [[c]]
      | f :: rest => if c = sep then [] :: f :: rest else (c :: f) :: rest)
    [[]]

/-- Whitespace characters removed by Python `str.strip()` (the ones that can
occur in the input lines). -/
def isWs (c : Char) : Bool := c = ' ' || c = '\n' || c = '\t' || c = '\r'

/-- Python `s.strip()`. -/
def trimWs (s : List Char) : List Char :=
  ((s.dropWhile isWs).reverse.dropWhile isWs).reverse

/-- Python `sep.join(fields)` for a single-character separator. -/
def joinSep (sep : Char) (xs : List (List Char)) : List Char :=
  List.intercalate [sep] xs

/-- The leaf field emitted for one kept path tuple:
`'|'.join([path[0], path[-1]])` (source line 27). -/
def leafOfTuple (ps : List (List Char)) : List Char :=
  joinSep '|' [ps.headD [], ps.getLastD []]

/-- The path field emitted for one kept path tuple:
`'|'.join(path[1:-1])` (source line 28). -/
def pathOfTuple (ps : List (List Char)) : List Char :=
  joinSep '|' ((ps.drop 1).dropLast)

/-- One iteration of the converter loop in `code2seq_to_fairseq.py`
(lines 15–32): strip and space-split the line; skip it entirely when there
are fewer than 3 top-level fields; otherwise emit
`(src, trg, leaf line, path line)`, where path tuples with fewer than 3
pipe-separated fields are dropped from the leaf/path outputs. -/
def processLine (line : List Char) :
    Option (List Char × List Char × List Char × List Char) :=
  let fields := splitOnSep ' ' (trimWs line)
  if fields.length < 3 then none
  else
    let trg := joinSep ' ' (splitOnSep '|' (fields.getD 0 []))
    let src := joinSep ' ' (splitOnSep '|' (fields.getD 1 []))
    let leaves := (fields.drop 2).filterMap (fun p =>
      let ps := splitOnSep '|' (trimWs p)
      if ps.length < 3 then none else some (leafOfTuple ps))
    let paths := (fields.drop 2).filterMap (fun p =>
      let ps := splitOnSep '|' (trimWs p)
      if ps.length < 3 then none else some (pathOfTuple ps))
    some (src, trg, joinSep ' ' leaves, joinSep ' ' paths)

/-- The whole converter: the four output files, one entry per emitted
example.  A line on which `processLine` is `none` contributes to none of
the four outputs. -/
def convertLines (lines : List (List Char)) :
    List (List Char) × List (List Char) × List (List Char) × List (List Char) :=
  let outs := lines.filterMap processLine
  (outs.map (fun o => o.1), outs.map (fun o => o.2.1),
   outs.map (fun o => o.2.2.1), outs.map (fun o => o.2.2.2))

/-- The tuples of a line that the converter keeps: exactly those whose
stripped pipe-split has at least 3 fields. -/
def keptTuples (line : List Char) : List (List (List Char)) :=
  ((splitOnSep ' ' (trimWs line)).drop 2).filterMap (fun p =>
    let ps := splitOnSep '|' (trimWs p)
    if ps.length < 3 then none else some ps)

/-! ## Dataset accessor:
`LanguagePairWithMultiContextDataset.__getitem__` (lines 149–180).

`torch.nonzero(leaf_item == leaf_dict.leaf())[0]` is the index of the first
occurrence of the leaf separator; indexing `[0]` into an empty result
raises, which the embedding models as `none`. -/

/-- Index of the first occurrence of `sep` in the leaf tensor, `none` when
there is no occurrence (in which case the Python code raises). -/
def firstSepIdx (sep : ℤ) : List ℤ → Option ℕ
  | [] => none
  | t :: rest => if t = sep then some 0 else (firstSepIdx sep rest).map (· + 1)

/-- The `(start_leaf, end_leaf)` pair produced by `__getitem__`:
`leaf_item[:ind]` and `leaf_item[(ind+1):]` for the first separator index
`ind`; `none` models the raised `IndexError` when no separator exists. -/
def getStartEndLeaf (leaf : List ℤ) (sep : ℤ) : Option (List ℤ × List ℤ) :=
  match firstSepIdx sep leaf with
  | none => none
  | some ind => some (leaf.take ind, leaf.drop (ind + 1))

/-! ## `FConvContextEncoder.forward` (lines 508–519).

The two sub-encoders, the dim-2 concatenation and the mask product are
opaque parameters; the definition mirrors only the data flow of `forward`,
which is what claim C9 is about. -/

/-- The encoder-output contract: a pair of representation tensors plus an
optional padding mask. -/
structure EncoderOut (E M : Type) where
  out1 : E
  out2 : E
  mask : Option M

/-- `FConvContextEncoder.forward` (lines 508–519): runs the input encoder
on the source, runs the context encoder **also on the source** (line 510),
multiplies the masks when both exist, and concatenates the outputs. -/
def fconvContextForward {T L E M : Type}
    (inputEnc ctxEnc : T → L → EncoderOut E M)
    (catDim2 : E → E → E) (mulMask : M → M → M)
    (srcTokens : T) (srcLengths : L) (ctxTokens : T) (ctxLengths : L) :
    EncoderOut E M :=
  let srcOutput := inputEnc srcTokens srcLengths
  let ctxOutput := ctxEnc srcTokens srcLengths
  let mask :=
    match srcOutput.mask, ctxOutput.mask with
    | some a, some b => some (mulMask a b)
    | _, _ => none
  { out1 := catDim2 srcOutput.out1 ctxOutput.out1,
    out2 := catDim2 srcOutput.out2 ctxOutput.out2,
    mask := mask }

/-! ## `Code2SeqEncoder` (fconv.py lines 584–699).

Token tensors are `List (List ℤ)` (batch of rows); all rows of one stream
tensor share a common width in the real code.  Delimiter location
(`torch.nonzero`), the cumulative offset index (`split_inds`), `_split_seq`,
`_truncate_seqs`, the masked leaf sums, the length sort/unsort and the
aggregation loop of `forward` are embedded one-to-one. -/

/-- Column positions (ascending) at which `row` equals the delimiter
`dlm` — one row of `torch.nonzero(tokens == dlm)`. -/
def delimPositionsRow (row : List ℤ) (dlm : ℤ) : List ℕ :=
  (List.range row.length).filter (fun j => row.getD j 0 = dlm)

/-- Number of delimiter occurrences in one row (`mask.sum(1)` for one row). -/
def countDelim (row : List ℤ) (dlm : ℤ) : ℕ :=
  (delimPositionsRow row dlm).length

/-- `torch.nonzero(tokens == dlm)`: the `(row, column)` index pairs of all
delimiter occurrences, in row-major order. -/
def nonzeroPairs (m : List (List ℤ)) (dlm : ℤ) : List (ℕ × ℕ) :=
  ((List.range m.length).map
    (fun r => (delimPositionsRow (m.getD r []) dlm).map (fun c => (r, c)))).flatten

/-- Column 0 of `torch.nonzero(tokens == dlm)`: the row id of each
delimiter occurrence, in row-major order. -/
def rowIds (m : List (List ℤ)) (dlm : ℤ) : List ℕ :=
  (nonzeroPairs m dlm).map Prod.fst

/-- `split_inds` (line 607):
`torch.cat((tensor([0]), cumsum(leaf_split_mask.sum(1), 0)))` — entry `i`
is the total number of delimiters in rows `0 … i-1`; length `B+1`. -/
def splitInds (m : List (List ℤ)) (dlm : ℤ) : List ℕ :=
  (List.range (m.length + 1)).map
    (fun i => ((List.range i).map (fun r => countDelim (m.getD r []) dlm)).sum)

/-- The whole-batch validation of `forward` (lines 613–615): some stream
has no delimiter at all, or the row-id columns of the three `nonzero`
results differ. -/
def code2seqValidationFails (sl el pt : List (List ℤ)) (dl dp : ℤ) : Bool :=
  (nonzeroPairs sl dl).isEmpty || (nonzeroPairs el dl).isEmpty ||
  (nonzeroPairs pt dp).isEmpty ||
  !(decide (rowIds sl dl = rowIds el dl)) ||
  !(decide (rowIds sl dl = rowIds pt dp))

/-- The sub-sequence boundaries of one row (line 671):
`cat(([max_len - len - 1], sentence_splits, [max_len])) + 1`. -/
def segBounds (maxLen len : ℕ) (positions : List ℕ) : List ℤ :=
  (((maxLen : ℤ) - (len : ℤ) - 1) :: (positions.map Int.ofNat ++ [(maxLen : ℤ)])).map
    (· + 1)

/-- Slice `row[a:b]` of a row for integer bounds (negative bounds never
occur along the executed paths; clamping matches the empty-slice behaviour
of out-of-order bounds). -/
def rowSlice (row : List ℤ) (a b : ℤ) : List ℤ :=
  (row.drop a.toNat).take (b - a).toNat

/-- The sub-sequences of one row produced by the loop body of `_split_seq`
(lines 669–674): segment `k` spans `[subsplit[k], subsplit[k+1] - 1)`. -/
def rowSegs (row : List ℤ) (maxLen len : ℕ) (positions : List ℕ) : List (List ℤ) :=
  let sub := segBounds maxLen len positions
  (List.range (sub.length - 1)).map
    (fun k => rowSlice row (sub.getD k 0) (sub.getD (k + 1) 0 - 1))

/-- The reported lengths of one row's sub-sequences (line 672):
`subsplit[1:] - subsplit[:-1] - 1`. -/
def rowSegLens (maxLen len : ℕ) (positions : List ℕ) : List ℤ :=
  let sub := segBounds maxLen len positions
  (List.range (sub.length - 1)).map
    (fun k => sub.getD (k + 1) 0 - sub.getD k 0 - 1)

/-- `splits[split_inds[i]:split_inds[i+1], 1]` (line 669): the delimiter
column positions attributed to row `i` by slicing the flat `nonzero` result
with the cumulative index. -/
def posOfRow (splits : List (ℕ × ℕ)) (si : List ℕ) (i : ℕ) : List ℕ :=
  (((splits.drop (si.getD i 0)).take (si.getD (i + 1) 0 - si.getD i 0)).map Prod.snd)

/-- Right-pad a sub-sequence to width `w` with the pad symbol
(`pad_sequence`, line 677). -/
def padTo (padL : ℤ) (w : ℕ) (s : List ℤ) : List ℤ :=
  s ++ List.replicate (w - s.length) padL

/-- The padding mask produced by `_split_seq` (line 678):
`padded != leaf_dictionary.pad()` — true exactly at positions whose token
differs from the pad symbol. -/
def padMask (padL : ℤ) (padded : List (List ℤ)) : List (List Bool) :=
  padded.map (fun r => r.map (fun t => decide (t ≠ padL)))

/-- The flat, batch-wide sub-sequence list accumulated by the loop of
`_split_seq` (`seqs`, lines 665–674): the concatenation over rows of each
row's delimiter-bounded slices. -/
def splitSegsRaw (tokens : List (List ℤ)) (lengths : List ℕ)
    (splits : List (ℕ × ℕ)) (si : List ℕ) : List (List ℤ) :=
  ((List.range tokens.length).map
    (fun i => rowSegs (tokens.getD i []) (tokens.headD []).length
      (lengths.getD i 0) (posOfRow splits si i))).flatten

/-- The common width `pad_sequence` pads the flat sub-sequences to: the
maximum sub-sequence length. -/
def segWidth (segs : List (List ℤ)) : ℕ :=
  (segs.map List.length).foldr max 0

/-- `_split_seq` (lines 664–678): per row, slice out the delimiter-bounded
sub-sequences and their lengths; concatenate across rows; pad everything to
the common maximum width with the (leaf) pad symbol; return the padded
sub-sequences, their lengths, and the `!= pad` mask. -/
def splitSeq (padL : ℤ) (tokens : List (List ℤ)) (lengths : List ℕ)
    (splits : List (ℕ × ℕ)) (si : List ℕ) :
    List (List ℤ) × List ℤ × List (List Bool) :=
  let seqs := splitSegsRaw tokens lengths splits si
  let lens := ((List.range tokens.length).map
    (fun i => rowSegLens (tokens.headD []).length (lengths.getD i 0)
      (posOfRow splits si i))).flatten
  let padded := seqs.map (padTo padL (segWidth seqs))
  (padded, lens, padMask padL padded)

/-- `_truncate_seqs` (lines 680–688): when the common width exceeds the
configured maximum, crop every sub-sequence and mask row to the first
`maxLength` columns and clamp the reported lengths into `[0, maxLength]`;
otherwise return everything unchanged. -/
def truncateSeqs (maxLength : ℕ) (seqs : List (List ℤ))
    (seqLens : Option (List ℤ)) (seqMasks : Option (List (List Bool))) :
    List (List ℤ) × Option (List ℤ) × Option (List (List Bool)) :=
  if (seqs.headD []).length ≤ maxLength then (seqs, seqLens, seqMasks)
  else
    (seqs.map (List.take maxLength),
     seqLens.map (List.map (fun x => min (max x 0) (maxLength : ℤ))),
     seqMasks.map (List.map (List.take maxLength)))

/-- The masked embedding sum of one sub-sequence row (lines 626–627):
`sum(embedding(seq).masked_fill_(mask, 0), dim=1)` — the embedding of a
position is replaced by zero wherever its mask entry is TRUE, then all
positions are summed. -/
def maskedSumRow (e : ℤ → Vec) (d : ℕ) (row : List ℤ) (mrow : List Bool) : Vec :=
  (List.zipWith (fun t b => if b then zeroVec d else e t) row mrow).foldr vadd (zeroVec d)

/-- `torch.sort(lens, descending=True)` index output: a stable descending
argsort of the flat sub-sequence lengths (line 633). -/
def argsortDesc (v : List ℤ) : List ℕ :=
  (List.range v.length).mergeSort
    (fun a b => decide (v.getD b 0 < v.getD a 0) ||
      (decide (v.getD a 0 = v.getD b 0) && decide (a ≤ b)))

/-- `sort_order.sort()` index output (line 641): an ascending argsort,
which on a permutation yields its inverse. -/
def argsortAsc (σ : List ℕ) : List ℕ :=
  (List.range σ.length).mergeSort (fun a b => decide (σ.getD a 0 ≤ σ.getD b 0))

/-- `x.index_select(0, ids)`. -/
def indexSelect {α : Type} (dflt : α) (x : List α) (ids : List ℕ) : List α :=
  ids.map (fun j => x.getD j dflt)

/-- The learned components of `Code2SeqEncoder`, abstracted as functions:
`leafEmbed`/`pathEmbed` are the embedding-table lookups, `lstm` maps an
embedded path sub-sequence (already trimmed to its true length, as
`pack_padded_sequence` arranges) to the concatenated final hidden states,
and `fcT` is `tanh ∘ fc` on the concatenated `4*d`-wide input. -/
structure Code2SeqNet where
  d : ℕ
  leafEmbed : ℤ → Vec
  pathEmbed : ℤ → Vec
  lstm : List Vec → Vec
  fcT : Vec → Vec

/-- The flat per-instance fused vectors `z` of `forward` (lines 618–644):
split all three streams with the shared cumulative index, truncate, form
the masked leaf sums, embed and length-sort the path sub-sequences, encode
them, unsort, and fuse each triple through `fcT`. -/
def code2seqFused (net : Code2SeqNet) (maxLeaf maxPath : ℕ) (dl dp padL : ℤ)
    (sl : List (List ℤ)) (slLens : List ℕ) (el : List (List ℤ)) (elLens : List ℕ)
    (pt : List (List ℤ)) (ptLens : List ℕ) : List Vec :=
  let si := splitInds sl dl
  let s0 := splitSeq padL sl slLens (nonzeroPairs sl dl) si
  let e0 := splitSeq padL el elLens (nonzeroPairs el dl) si
  let p0 := splitSeq padL pt ptLens (nonzeroPairs pt dp) si
  let s1 := truncateSeqs maxLeaf s0.1 none (some s0.2.2)
  let e1 := truncateSeqs maxLeaf e0.1 none (some e0.2.2)
  let p1 := truncateSeqs maxPath p0.1 (some p0.2.1) none
  let slSums := List.zipWith (maskedSumRow net.leafEmbed net.d) s1.1 (s1.2.2.getD [])
  let elSums := List.zipWith (maskedSumRow net.leafEmbed net.d) e1.1 (e1.2.2.getD [])
  let pEmb := p1.1.map (List.map net.pathEmbed)
  let pLens := p1.2.1.getD []
  let sortOrder := argsortDesc pLens
  let sortedLens := indexSelect 0 pLens sortOrder
  let sortedSeqs := indexSelect [] pEmb sortOrder
  let hSorted := (List.zip sortedSeqs sortedLens).map
    (fun sle => net.lstm (sle.1.take sle.2.toNat))
  let hOut := indexSelect (zeroVec (2 * net.d)) hSorted (argsortAsc sortOrder)
  List.zipWith (fun hv ab => net.fcT (hv ++ ab.1 ++ ab.2)) hOut (List.zip slSums elSums)

/-- The aggregation loop of `forward` (lines 646–657), with the fuel equal
to the number of remaining examples, `i` the current example and `cm` the
running `cur_max` pointer (initially `-1`). -/
def aggregAux (d : ℕ) (z : List Vec) (si : List ℕ) : ℕ → ℕ → ℤ → List Vec
  | 0, _, _ => []
  | fuel + 1, i, cm =>
    let s := si.getD i 0
    let e := si.getD (i + 1) 0
    if s ≠ e then
      vdiv (sliceSum d z (s + i) (e + i + 1)) ((e : ℚ) - (s : ℚ)) ::
        aggregAux d z si fuel (i + 1) ((e : ℤ) + (i : ℤ))
    else
      z.getD (cm + 1).toNat (zeroVec d) :: aggregAux d z si fuel (i + 1) (cm + 1)

/-- The per-example aggregation (lines 646–657): `cur_max` starts at `-1`
and the loop runs over the `B` examples. -/
def aggregLoop (d : ℕ) (z : List Vec) (si : List ℕ) (B : ℕ) : List Vec :=
  aggregAux d z si B 0 (-1)

/-- `Code2SeqEncoder.forward` (lines 600–662): return the shared zero
vector for every example when the whole-batch validation fails, otherwise
aggregate the fused per-instance vectors with the cumulative index. -/
def code2seqForward (net : Code2SeqNet) (maxLeaf maxPath : ℕ) (dl dp padL : ℤ)
    (sl : List (List ℤ)) (slLens : List ℕ) (el : List (List ℤ)) (elLens : List ℕ)
    (pt : List (List ℤ)) (ptLens : List ℕ) : List Vec :=
  if code2seqValidationFails sl el pt dl dp then
    List.replicate sl.length (zeroVec net.d)
  else
    aggregLoop net.d
      (code2seqFused net maxLeaf maxPath dl dp padL sl slLens el elLens pt ptLens)
      (splitInds sl dl) sl.length

/-- A concrete instantiation of the learned components, used to evaluate
the encoder on explicit inputs: embedding width 1, leaf embedding with a
zero row at the pad symbol `1` (as the `Embedding` helper on lines 989–993
initialises it), path embedding mapping a token to itself, an `lstm`
reading off the first embedded token, and a fused projection distinguishing
the two path tokens used in the worked batches. -/
def exampleNet : Code2SeqNet where
  d := 1
  leafEmbed := fun t => if t = 5 then [1] else [0]
  pathEmbed := fun t => [(t : ℚ)]
  lstm := fun s => [(s.headD [0]).headD 0, 0]
  fcT := fun v => [if v.headD 0 = 4 then (2 : ℚ) else (4 : ℚ)]

/-- The per-example aggregate as the specification words it: the
arithmetic mean of exactly the fused vectors in the half-open offset range
`[lo, hi)`, not including anything beyond `hi`.  Stated for comparison with
the aggregation loop actually implemented on lines 646–657. -/
def specMeanOfInstances (d : ℕ) (z : List Vec) (lo hi : ℕ) : Vec :=
  vdiv (sliceSum d z lo hi) ((hi : ℚ) - (lo : ℚ))

/-! ## Helper lemmas -/

/-- `filterMap` with a keep-or-drop function followed by a projection is
the projection mapped over the kept elements. -/
theorem filterMap_proj {α β γ : Type} (f : α → Option β) (g : β → γ)
    (l : List α) :
    l.filterMap (fun p => (f p).map g) = (l.filterMap f).map g := by
  induction l with
  | nil => rfl
  | cons p rest ih =>
    cases h : f p <;> simp [List.filterMap_cons, h, ih]

/-- The kept-tuple condition as a `filter`. -/
theorem keptTuples_eq_filter (line : List Char) :
    keptTuples line =
      (((splitOnSep ' ' (trimWs line)).drop 2).map
        (fun p => splitOnSep '|' (trimWs p))).filter
        (fun ps => decide (3 ≤ ps.length)) := by
  unfold keptTuples
  induction ((splitOnSep ' ' (trimWs line)).drop 2) with
  | nil => rfl
  | cons p rest ih =>
    by_cases h : (splitOnSep '|' (trimWs p)).length < 3
    · simp [List.filterMap_cons, h, ih, Nat.not_le_of_lt h]
    · simp [List.filterMap_cons, h, ih, Nat.le_of_not_lt h]

/-- Every tuple kept by the converter has at least 3 pipe-separated fields. -/
theorem keptTuples_ge3 (line : List Char) :
    ∀ ps ∈ keptTuples line, 3 ≤ ps.length := by
  intro ps hps
  rw [keptTuples_eq_filter] at hps
  have := List.of_mem_filter hps
  simpa using this

/-- `firstSepIdx` is `none` exactly when the separator does not occur. -/
theorem firstSepIdx_eq_none_iff (sep : ℤ) (leaf : List ℤ) :
    firstSepIdx sep leaf = none ↔ sep ∉ leaf := by
  induction leaf with
  | nil => simp [firstSepIdx]
  | cons t rest ih =>
    by_cases h : t = sep
    · simp [firstSepIdx, h]
    · constructor
      · intro hn hm
        rcases List.mem_cons.mp hm with h0 | h0
        · exact h h0.symm
        · simp only [firstSepIdx, if_neg h, Option.map_eq_none'] at hn
          exact (ih.mp hn) h0
      · intro hm
        have hrest : sep ∉ rest := fun hr => hm (List.mem_cons_of_mem _ hr)
        simp [firstSepIdx, if_neg h, ih.mpr hrest]

/-- When `firstSepIdx` returns `i`, splitting at `i` reconstructs the list
and the prefix before `i` is separator-free. -/
theorem firstSepIdx_spec (sep : ℤ) :
    ∀ (leaf : List ℤ) (i : ℕ), firstSepIdx sep leaf = some i →
      leaf.take i ++ sep :: leaf.drop (i + 1) = leaf ∧ sep ∉ leaf.take i := by
  intro leaf
  induction leaf with
  | nil => intro i h; simp [firstSepIdx] at h
  | cons t rest ih =>
    intro i h
    by_cases ht : t = sep
    · simp only [firstSepIdx, if_pos ht, Option.some.injEq] at h
      subst h
      simp [ht]
    · simp only [firstSepIdx, if_neg ht] at h
      rcases Option.map_eq_some.mp h with ⟨j, hj, hij⟩
      subst hij
      rcases ih j hj with ⟨hsplit, hmem⟩
      constructor
      · simpa using hsplit
      · intro hm
        rcases List.mem_cons.mp (by simpa using hm) with h0 | h0
        · exact ht h0.symm
        · exact hmem h0

/-- Dropping the summed lengths of the first `i` blocks from a flattened
list of blocks leaves the flattening of the remaining blocks. -/
theorem flatten_drop_blocks {α : Type} :
    ∀ (i : ℕ) (L : List (List α)),
      L.flatten.drop (((L.take i).map List.length).sum) = (L.drop i).flatten := by
  intro i
  induction i with
  | zero => intro L; simp
  | succ k ih =>
    intro L
    cases L with
    | nil => simp
    | cons x xs =>
      simp only [List.take_succ_cons, List.map_cons, List.sum_cons,
        List.flatten_cons, List.drop_succ_cons]
      rw [List.drop_append]
      exact ih xs

/-- Reading the flattening of blocks at offset (lengths of first `i`
blocks) + `j` reads entry `j` of block `i`. -/
theorem flatten_getD_blocks {α : Type} (dflt : α) (L : List (List α))
    (i j : ℕ) (hi : i < L.length) (hj : j < (L.getD i []).length) :
    L.flatten.getD (((L.take i).map List.length).sum + j) dflt =
      (L.getD i []).getD j dflt := by
  have hdrop := flatten_drop_blocks i L
  have hcons : L.drop i = L.getD i [] :: L.drop (i + 1) := by
    rw [List.getD_eq_getElem L [] hi]
    exact List.drop_eq_getElem_cons hi
  have h1 : L.flatten.getD (((L.take i).map List.length).sum + j) dflt =
      (L.flatten.drop (((L.take i).map List.length).sum)).getD j dflt := by
    simp [List.getD_eq_getElem?_getD, List.getElem?_drop]
  rw [h1, hdrop, hcons]
  simp only [List.flatten_cons]
  exact List.getD_append _ _ _ _ hj

/-- Taking block `i` out of the flattening at its offset. -/
theorem flatten_take_block {α : Type} (L : List (List α)) (i : ℕ)
    (hi : i < L.length) :
    (L.flatten.drop (((L.take i).map List.length).sum)).take
      (L.getD i []).length = L.getD i [] := by
  rw [flatten_drop_blocks]
  have hcons : L.drop i = L.getD i [] :: L.drop (i + 1) := by
    rw [List.getD_eq_getElem L [] hi]
    exact List.drop_eq_getElem_cons hi
  rw [hcons]
  simp only [List.flatten_cons]
  exact List.take_left _ _

/-- Sum over `range n` of `f r + 1` splits off `n`. -/
theorem sum_map_add_one (f : ℕ → ℕ) :
    ∀ n : ℕ, ((List.range n).map (fun r => f r + 1)).sum =
      ((List.range n).map f).sum + n := by
  intro n
  induction n with
  | zero => rfl
  | succ k ih => simp [List.range_succ, ih]; omega

/-- Sum over `range n` of an indicator at `i < n` is the value at `i`. -/
theorem sum_map_range_ite (f : ℕ → ℕ) :
    ∀ (n i : ℕ), i < n →
      ((List.range n).map (fun r => if r = i then f r else 0)).sum = f i := by
  intro n
  induction n with
  | zero => intro i hi; omega
  | succ k ih =>
    intro i hi
    rw [List.range_succ]
    by_cases h : i = k
    · subst h
      have hz : ((List.range i).map (fun r => if r = i then f r else 0)).sum = 0 := by
        apply List.sum_eq_zero
        intro x hx
        rcases List.mem_map.mp hx with ⟨r, hr, hrx⟩
        have : r < i := List.mem_range.mp hr
        simp only [← hrx, if_neg (Nat.ne_of_lt this)]
      simp [hz]
    · have hik : i < k := by omega
      have hki : k ≠ i := fun hk => h hk.symm
      simp [ih i hik, hki]

/-- Entry `i ≤ B` of the cumulative index is the delimiter count of the
first `i` rows. -/
theorem splitInds_getD (m : List (List ℤ)) (dlm : ℤ) (i : ℕ)
    (hi : i ≤ m.length) :
    (splitInds m dlm).getD i 0 =
      ((List.range i).map (fun r => countDelim (m.getD r []) dlm)).sum := by
  have hlen : i < (List.range (m.length + 1)).length := by
    simp [List.length_range]; omega
  have hlen2 : i <
      ((List.range (m.length + 1)).map
        (fun i => ((List.range i).map (fun r => countDelim (m.getD r []) dlm)).sum)).length := by
    simpa using hlen
  unfold splitInds
  rw [List.getD_eq_getElem _ _ hlen2, List.getElem_map, List.getElem_range]

/-- The cumulative index starts at 0. -/
theorem splitInds_getD_zero (m : List (List ℤ)) (dlm : ℤ) :
    (splitInds m dlm).getD 0 0 = 0 := by
  rw [splitInds_getD m dlm 0 (Nat.zero_le _)]
  rfl

/-- The cumulative index has one entry per example plus one. -/
theorem splitInds_length (m : List (List ℤ)) (dlm : ℤ) :
    (splitInds m dlm).length = m.length + 1 := by
  simp [splitInds]

/-- The row-id column of `torch.nonzero` is the row-wise concatenation of
each row id repeated by its delimiter count. -/
theorem rowIds_eq_flatten (m : List (List ℤ)) (dlm : ℤ) :
    rowIds m dlm =
      ((List.range m.length).map
        (fun r => List.replicate (countDelim (m.getD r []) dlm) r)).flatten := by
  unfold rowIds nonzeroPairs
  rw [List.map_flatten, List.map_map]
  congr 1
  apply List.map_congr_left
  intro r hr
  simp [List.map_map, Function.comp, countDelim, List.map_const']

/-- Counting a row id in the row-id column recovers that row's delimiter
count. -/
theorem count_rowIds (m : List (List ℤ)) (dlm : ℤ) (i : ℕ)
    (hi : i < m.length) :
    (rowIds m dlm).count i = countDelim (m.getD i []) dlm := by
  rw [rowIds_eq_flatten, List.count_flatten, List.map_map]
  have hcongr : ((List.range m.length).map
      (List.count i ∘ fun r => List.replicate (countDelim (m.getD r []) dlm) r)) =
      ((List.range m.length).map
        (fun r => if r = i then countDelim (m.getD r []) dlm else 0)) := by
    apply List.map_congr_left
    intro r hr
    simp only [Function.comp_apply, List.count_replicate]
    by_cases h : r = i <;> simp [h]
  rw [hcongr, sum_map_range_ite _ _ _ hi]

/-- Slicing the flat `nonzero` pairs of a stream with that stream's own
cumulative index yields exactly row `i`'s delimiter positions
(lines 669–671 under a passing validation). -/
theorem posOfRow_splitInds (m : List (List ℤ)) (dlm : ℤ) (i : ℕ)
    (hi : i < m.length) :
    posOfRow (nonzeroPairs m dlm) (splitInds m dlm) i =
      delimPositionsRow (m.getD i []) dlm := by
  set bl := fun r => (delimPositionsRow (m.getD r []) dlm).map (fun c => (r, c)) with hbl
  set blocks := (List.range m.length).map bl with hblocks
  have hblen : blocks.length = m.length := by simp [hblocks]
  have htake : blocks.take i = (List.range i).map bl := by
    rw [hblocks, ← List.map_take, List.take_range, Nat.min_eq_left (Nat.le_of_lt hi)]
  have hlens : (blocks.take i).map List.length =
      (List.range i).map (fun r => countDelim (m.getD r []) dlm) := by
    rw [htake, List.map_map]
    apply List.map_congr_left
    intro r hr
    simp [hbl, countDelim]
  have hofs : (splitInds m dlm).getD i 0 = ((blocks.take i).map List.length).sum := by
    rw [splitInds_getD m dlm i (Nat.le_of_lt hi), hlens]
  have hcnt : (splitInds m dlm).getD (i + 1) 0 - (splitInds m dlm).getD i 0 =
      countDelim (m.getD i []) dlm := by
    rw [splitInds_getD m dlm (i + 1) (by omega), splitInds_getD m dlm i (Nat.le_of_lt hi)]
    rw [List.range_succ, List.map_append, List.sum_append]
    simp
  have hgetD : blocks.getD i [] = bl i := by
    have hlt : i < blocks.length := by omega
    rw [List.getD_eq_getElem _ _ hlt]
    simp [hblocks]
  have hdrop : (nonzeroPairs m dlm).drop ((splitInds m dlm).getD i 0) =
      (blocks.drop i).flatten := by
    have : nonzeroPairs m dlm = blocks.flatten := by rfl
    rw [this, hofs, flatten_drop_blocks]
  have hcons : blocks.drop i = bl i :: blocks.drop (i + 1) := by
    have hlt : i < blocks.length := by omega
    rw [List.drop_eq_getElem_cons hlt, ← List.getD_eq_getElem _ [] hlt, hgetD]
  unfold posOfRow
  rw [hdrop, hcnt, hcons]
  simp only [List.flatten_cons]
  have hbllen : (bl i).length = countDelim (m.getD i []) dlm := by
    simp [hbl, countDelim]
  rw [← hbllen, List.take_left, hbl]
  simp [List.map_map]

/-- One unfolding step of the aggregation loop at a successor index: the
head is dropped and the `cur_max` state advances according to the branch
taken for example `i`. -/
theorem aggregAux_succ_getD (d : ℕ) (z : List Vec) (si : List ℕ)
    (f i : ℕ) (cm : ℤ) (k : ℕ) :
    (aggregAux d z si (f + 1) i cm).getD (k + 1) (zeroVec d) =
      (aggregAux d z si f (i + 1)
        (if si.getD i 0 = si.getD (i + 1) 0 then cm + 1
         else (si.getD (i + 1) 0 : ℤ) + (i : ℤ))).getD k (zeroVec d) := by
  by_cases hbr : si.getD i 0 = si.getD (i + 1) 0
  all_goals
    simp only [List.getD_eq_getElem?_getD] at hbr
    simp [aggregAux, hbr]

/-- Entry `k` of the aggregation loop, when example `i+k` has a non-empty
offset range: the emitted vector is the slice sum from flat index
`lo + (i+k)` through `hi + (i+k)` inclusive, divided by `hi - lo`,
independently of the incoming `cur_max` state. -/
theorem aggregAux_getD_of_ne (d : ℕ) (z : List Vec) (si : List ℕ) :
    ∀ (k fuel i : ℕ) (cm : ℤ), k < fuel →
      si.getD (i + k) 0 ≠ si.getD (i + k + 1) 0 →
      (aggregAux d z si fuel i cm).getD k (zeroVec d) =
        vdiv (sliceSum d z (si.getD (i + k) 0 + (i + k)) (si.getD (i + k + 1) 0 + (i + k) + 1))
          ((si.getD (i + k + 1) 0 : ℚ) - ((si.getD (i + k) 0 : ℚ))) := by
  intro k
  induction k with
  | zero =>
    intro fuel i cm hk hne
    cases fuel with
    | zero => omega
    | succ f =>
      simp only [Nat.add_zero] at hne ⊢
      simp only [List.getD_eq_getElem?_getD] at hne
      simp [aggregAux, hne]
  | succ k ih =>
    intro fuel i cm hk hne
    cases fuel with
    | zero => omega
    | succ f =>
      have hk2 : k < f := by omega
      have harith : i + 1 + k = i + (k + 1) := by omega
      have hne2 : si.getD (i + 1 + k) 0 ≠ si.getD (i + 1 + k + 1) 0 := by
        rw [harith]; exact hne
      rw [aggregAux_succ_getD, ih f (i + 1) _ hk2 hne2, harith]

/-- Entry `k` of the aggregation loop, when example `i+k` has an empty
offset range: provided the `cur_max` invariant holds at entry
(`cm = si[i] + i - 1`), the emitted vector is the flat fused vector at
index `si[i+k] + (i+k)` — the trailing segment of that example. -/
theorem aggregAux_getD_of_eq (d : ℕ) (z : List Vec) (si : List ℕ) :
    ∀ (k fuel i : ℕ) (cm : ℤ), k < fuel →
      si.getD (i + k) 0 = si.getD (i + k + 1) 0 →
      cm = (si.getD i 0 : ℤ) + (i : ℤ) - 1 →
      (aggregAux d z si fuel i cm).getD k (zeroVec d) =
        z.getD (si.getD (i + k) 0 + (i + k)) (zeroVec d) := by
  intro k
  induction k with
  | zero =>
    intro fuel i cm hk heq hcm
    cases fuel with
    | zero => omega
    | succ f =>
      simp only [Nat.add_zero] at heq ⊢
      have hidx : (cm + 1).toNat = si.getD i 0 + i := by omega
      simp only [List.getD_eq_getElem?_getD] at heq hidx ⊢
      simp [aggregAux, heq, hidx]
  | succ k ih =>
    intro fuel i cm hk heq hcm
    cases fuel with
    | zero => omega
    | succ f =>
      have hk2 : k < f := by omega
      have harith : i + 1 + k = i + (k + 1) := by omega
      have heq2 : si.getD (i + 1 + k) 0 = si.getD (i + 1 + k + 1) 0 := by
        rw [harith]; exact heq
      have hcm2 : (if si.getD i 0 = si.getD (i + 1) 0 then cm + 1
          else (si.getD (i + 1) 0 : ℤ) + (i : ℤ)) =
          (si.getD (i + 1) 0 : ℤ) + ((i + 1 : ℕ) : ℤ) - 1 := by
        by_cases hbr : si.getD i 0 = si.getD (i + 1) 0
        · rw [if_pos hbr, hcm, hbr]; push_cast; ring
        · rw [if_neg hbr]; push_cast; ring
      rw [aggregAux_succ_getD, hcm2, ih f (i + 1) _ hk2 heq2 rfl, harith]

/-- The descending argsort is a permutation of the row indices. -/
theorem argsortDesc_perm (v : List ℤ) :
    (argsortDesc v).Perm (List.range v.length) :=
  List.mergeSort_perm _ _

/-- The ascending argsort is a permutation of the row indices. -/
theorem argsortAsc_perm (σ : List ℕ) :
    (argsortAsc σ).Perm (List.range σ.length) :=
  List.mergeSort_perm _ _

/-- Reading a list back through `getD` over its index range is the list. -/
theorem map_getD_range {α : Type} (l : List α) (dflt : α) :
    (List.range l.length).map (fun i => l.getD i dflt) = l := by
  apply List.ext_getElem
  · simp
  · intro n h1 h2
    have hn : n < l.length := by simpa using h2
    rw [List.getElem_map, List.getElem_range, List.getD_eq_getElem _ _ hn]

/-- On a permutation `σ` of `range n`, the ascending argsort computes the
inverse permutation: `σ[argsortAsc σ [i]] = i`. -/
theorem argsortAsc_getD (σ : List ℕ) (n : ℕ)
    (hσ : σ.Perm (List.range n)) (i : ℕ) (hi : i < n) :
    σ.getD ((argsortAsc σ).getD i 0) 0 = i := by
  have hlen : σ.length = n := by simpa using hσ.length_eq
  have hinvp : (argsortAsc σ).Perm (List.range n) := by
    have := argsortAsc_perm σ
    rwa [hlen] at this
  have hinvlen : (argsortAsc σ).length = n := by simpa using hinvp.length_eq
  have hmap_range : (List.range n).map (fun a => σ.getD a 0) = σ := by
    rw [← hlen]
    exact map_getD_range σ 0
  have hperm1 : ((argsortAsc σ).map (fun a => σ.getD a 0)).Perm σ := by
    have := hinvp.map (fun a => σ.getD a 0)
    rwa [hmap_range] at this
  have hperm2 : ((argsortAsc σ).map (fun a => σ.getD a 0)).Perm (List.range n) :=
    hperm1.trans hσ
  have hsorted_inv : List.Pairwise
      (fun a b => (decide (σ.getD a 0 ≤ σ.getD b 0)) = true) (argsortAsc σ) := by
    apply List.sorted_mergeSort
    · intro a b c hab hbc
      simp only [decide_eq_true_eq] at hab hbc ⊢
      omega
    · intro a b
      simp [le_total]
  have hsorted_map : List.Sorted (· ≤ ·) ((argsortAsc σ).map (fun a => σ.getD a 0)) := by
    rw [List.Sorted, List.pairwise_map]
    exact hsorted_inv.imp (fun h => by simpa using h)
  have hsorted_range : List.Sorted (· ≤ ·) (List.range n) :=
    (List.pairwise_lt_range n).imp (fun h => Nat.le_of_lt h)
  have heq : (argsortAsc σ).map (fun a => σ.getD a 0) = List.range n :=
    List.eq_of_perm_of_sorted hperm2 hsorted_map hsorted_range
  have hi2 : i < ((argsortAsc σ).map (fun a => σ.getD a 0)).length := by
    simpa [hinvlen] using hi
  have hi3 : i < (argsortAsc σ).length := by simpa [hinvlen] using hi
  calc σ.getD ((argsortAsc σ).getD i 0) 0
      = ((argsortAsc σ).map (fun a => σ.getD a 0)).getD i 0 := by
        rw [List.getD_eq_getElem _ _ hi2, List.getElem_map,
          List.getD_eq_getElem _ _ hi3]
    _ = i := by rw [heq, List.getD_eq_getElem _ _ (by simpa using hi), List.getElem_range]

/-- Entries of a permutation of `range n` are below `n`. -/
theorem perm_range_getD_lt (σ : List ℕ) (n : ℕ)
    (hσ : σ.Perm (List.range n)) (i : ℕ) (hi : i < σ.length) :
    σ.getD i 0 < n := by
  have hmem : σ.getD i 0 ∈ σ := by
    rw [List.getD_eq_getElem _ _ hi]
    exact List.getElem_mem hi
  have := (hσ.mem_iff).mp hmem
  simpa using this

/-- Index-selecting with a permutation of `range n` and then with its
ascending argsort restores any list of length `n` (the unsort step,
lines 640–642). -/
theorem unsort_id {γ : Type} (dflt : γ) (σ : List ℕ) (n : ℕ)
    (hσ : σ.Perm (List.range n)) (y : List γ) (hy : y.length = n) :
    indexSelect dflt (indexSelect dflt y σ) (argsortAsc σ) = y := by
  have hlen : σ.length = n := by simpa using hσ.length_eq
  have hinvp : (argsortAsc σ).Perm (List.range n) := by
    have := argsortAsc_perm σ
    rwa [hlen] at this
  have hinvlen : (argsortAsc σ).length = n := by simpa using hinvp.length_eq
  apply List.ext_getElem
  · simp [indexSelect, hinvlen, hy]
  · intro i h1 h2
    have hin : i < n := by simpa [indexSelect, hinvlen] using h1
    have hinv_i_lt : (argsortAsc σ).getD i 0 < n :=
      perm_range_getD_lt _ n hinvp i (by omega)
    have hσsel : σ.getD ((argsortAsc σ).getD i 0) 0 = i :=
      argsortAsc_getD σ n hσ i hin
    have hi3 : i < (argsortAsc σ).length := by omega
    have hstep1 : (indexSelect dflt (indexSelect dflt y σ) (argsortAsc σ))[i] =
        (indexSelect dflt y σ).getD ((argsortAsc σ).getD i 0) dflt := by
      simp only [indexSelect, List.getElem_map]
      rw [List.getD_eq_getElem _ _ hi3]
    have hstep2 : (indexSelect dflt y σ).getD ((argsortAsc σ).getD i 0) dflt =
        y.getD (σ.getD ((argsortAsc σ).getD i 0) 0) dflt := by
      have hb : (argsortAsc σ).getD i 0 < σ.length := by omega
      simp only [indexSelect]
      rw [List.getD_eq_getElem _ _ (by simpa using hb), List.getElem_map,
        List.getD_eq_getElem _ _ hb]
    rw [hstep1, hstep2, hσsel, List.getD_eq_getElem _ _ (by omega)]

/-- Each row contributes exactly `countDelim + 1` sub-sequences: one per
delimiter plus the trailing segment. -/
theorem rowSegs_length (row : List ℤ) (maxLen len : ℕ) (positions : List ℕ) :
    (rowSegs row maxLen len positions).length = positions.length + 1 := by
  have hsb : (segBounds maxLen len positions).length = positions.length + 2 := by
    simp [segBounds]
  unfold rowSegs
  rw [List.length_map, List.length_range, hsb]
  omega

/-- The flat sub-sequence list produced by `_split_seq` with a stream's own
index: block `i` starts at flat offset `splitInds[i] + i`, and its entry
`j` is segment `j` of row `i`. -/
theorem splitSegsRaw_getD (m : List (List ℤ)) (lengths : List ℕ) (dlm : ℤ)
    (i j : ℕ) (hi : i < m.length)
    (hj : j < countDelim (m.getD i []) dlm + 1) :
    (splitSegsRaw m lengths (nonzeroPairs m dlm) (splitInds m dlm)).getD
        ((splitInds m dlm).getD i 0 + i + j) [] =
      (rowSegs (m.getD i []) (m.headD []).length (lengths.getD i 0)
        (delimPositionsRow (m.getD i []) dlm)).getD j [] := by
  set P := (m.headD []).length with hP
  set blocks := (List.range m.length).map
    (fun r => rowSegs (m.getD r []) P (lengths.getD r 0)
      (delimPositionsRow (m.getD r []) dlm)) with hblocks
  have hmaps : (List.range m.length).map
      (fun r => rowSegs (m.getD r []) P (lengths.getD r 0)
        (posOfRow (nonzeroPairs m dlm) (splitInds m dlm) r)) = blocks := by
    rw [hblocks]
    apply List.map_congr_left
    intro r hr
    rw [posOfRow_splitInds m dlm r (List.mem_range.mp hr)]
  have hraw : splitSegsRaw m lengths (nonzeroPairs m dlm) (splitInds m dlm) =
      blocks.flatten := by
    unfold splitSegsRaw
    rw [← hP, hmaps]
  have hblen : blocks.length = m.length := by simp [hblocks]
  have hblock_i : blocks.getD i [] =
      rowSegs (m.getD i []) P (lengths.getD i 0)
        (delimPositionsRow (m.getD i []) dlm) := by
    have hlt : i < blocks.length := by omega
    rw [List.getD_eq_getElem _ _ hlt]
    simp [hblocks]
  have hofs : ((blocks.take i).map List.length).sum =
      (splitInds m dlm).getD i 0 + i := by
    have htake : blocks.take i = (List.range i).map
        (fun r => rowSegs (m.getD r []) P (lengths.getD r 0)
          (delimPositionsRow (m.getD r []) dlm)) := by
      rw [hblocks, ← List.map_take, List.take_range, Nat.min_eq_left (Nat.le_of_lt hi)]
    rw [htake, List.map_map]
    have hcongr : ((List.range i).map
        (List.length ∘ fun r => rowSegs (m.getD r []) P (lengths.getD r 0)
          (delimPositionsRow (m.getD r []) dlm))) =
        (List.range i).map (fun r => countDelim (m.getD r []) dlm + 1) := by
      apply List.map_congr_left
      intro r hr
      simp [Function.comp, rowSegs_length, countDelim]
    rw [hcongr, sum_map_add_one, splitInds_getD m dlm i (Nat.le_of_lt hi)]
  have hj2 : j < (blocks.getD i []).length := by
    rw [hblock_i, rowSegs_length]
    simpa [countDelim] using hj
  rw [hraw, ← hofs, flatten_getD_blocks [] blocks i j (by omega) hj2, hblock_i]

/-- The flat sub-sequence list has `splitInds[B] + B` rows in total. -/
theorem splitSegsRaw_length (m : List (List ℤ)) (lengths : List ℕ) (dlm : ℤ) :
    (splitSegsRaw m lengths (nonzeroPairs m dlm) (splitInds m dlm)).length =
      (splitInds m dlm).getD m.length 0 + m.length := by
  unfold splitSegsRaw
  rw [List.length_flatten, List.map_map]
  have hcongr : ((List.range m.length).map
      (List.length ∘ fun i => rowSegs (m.getD i []) (m.headD []).length
        (lengths.getD i 0) (posOfRow (nonzeroPairs m dlm) (splitInds m dlm) i))) =
      (List.range m.length).map (fun r => countDelim (m.getD r []) dlm + 1) := by
    apply List.map_congr_left
    intro r hr
    rw [Function.comp_apply, posOfRow_splitInds m dlm r (List.mem_range.mp hr),
      rowSegs_length]
    rfl
  rw [hcongr, sum_map_add_one, splitInds_getD m dlm m.length (Nat.le_refl _)]

/-! ## Claim theorems -/

/-- C9: for fixed model parameters and fixed source tokens/lengths, the
output of `FConvContextEncoder.forward` (both encoder-out tensors and the
padding mask) is identical across any two values of the `ctx_tokens` and
`ctx_lengths` arguments, because line 510 invokes the context encoder on
the source tokens, so the context inputs never influence the result. -/
theorem c9_ctx_independent {T L E M : Type}
    (inputEnc ctxEnc : T → L → EncoderOut E M)
    (catDim2 : E → E → E) (mulMask : M → M → M)
    (srcTokens : T) (srcLengths : L)
    (ctxTokens1 : T) (ctxLengths1 : L) (ctxTokens2 : T) (ctxLengths2 : L) :
    fconvContextForward inputEnc ctxEnc catDim2 mulMask
        srcTokens srcLengths ctxTokens1 ctxLengths1 =
      fconvContextForward inputEnc ctxEnc catDim2 mulMask
        srcTokens srcLengths ctxTokens2 ctxLengths2 := rfl

/-- C10: when the leaf tensor contains the leaf separator, `__getitem__`
splits it at the first occurrence: `start_leaf` is the prefix strictly
before it (separator-free), `end_leaf` the suffix strictly after it, and
`start_leaf ++ [separator] ++ end_leaf` reconstructs the tensor; with no
separator the accessor fails (models the raised `IndexError`). -/
theorem c10_leaf_split (leaf : List ℤ) (sep : ℤ) :
    (sep ∈ leaf → ∃ pre suf, getStartEndLeaf leaf sep = some (pre, suf) ∧
      pre ++ sep :: suf = leaf ∧ sep ∉ pre) ∧
    (sep ∉ leaf → getStartEndLeaf leaf sep = none) := by
  constructor
  · intro hm
    have hne : firstSepIdx sep leaf ≠ none :=
      fun h => ((firstSepIdx_eq_none_iff sep leaf).mp h) hm
    cases h : firstSepIdx sep leaf with
    | none => exact absurd h hne
    | some i =>
      rcases firstSepIdx_spec sep leaf i h with ⟨hsplit, hpre⟩
      refine ⟨leaf.take i, leaf.drop (i + 1), ?_, hsplit, hpre⟩
      unfold getStartEndLeaf
      rw [h]
  · intro hm
    unfold getStartEndLeaf
    rw [(firstSepIdx_eq_none_iff sep leaf).mpr hm]

/-- Witness for C10 at a concrete leaf tensor containing the separator. -/
theorem c10_leaf_split_witness :
    ∃ pre suf, getStartEndLeaf [4, 9, 5] 9 = some (pre, suf) ∧
      pre ++ 9 :: suf = [4, 9, 5] ∧ (9 : ℤ) ∉ pre :=
  (c10_leaf_split [4, 9, 5] 9).1 (by decide)

/-- C7: `_truncate_seqs` leaves a collection whose common width is at most
`M` unchanged, and otherwise crops every sub-sequence and mask row to the
first `M` columns and clamps every reported length into `[0, M]`, dropping
no sub-sequence. -/
theorem c7_truncate (M W : ℕ) (seqs : List (List ℤ)) (lens : List ℤ)
    (masks : List (List Bool)) (hW : ∀ r ∈ seqs, r.length = W) :
    (W ≤ M → truncateSeqs M seqs (some lens) (some masks) =
      (seqs, some lens, some masks)) ∧
    (M < W → seqs ≠ [] →
      truncateSeqs M seqs (some lens) (some masks) =
        (seqs.map (List.take M),
         some (lens.map (fun x => min (max x 0) (M : ℤ))),
         some (masks.map (List.take M))) ∧
      (seqs.map (List.take M)).length = seqs.length ∧
      (∀ r ∈ seqs.map (List.take M), r.length = M) ∧
      (∀ x ∈ lens.map (fun x => min (max x 0) (M : ℤ)), x ≤ (M : ℤ))) := by
  constructor
  · intro hWM
    have hcond : (seqs.headD []).length ≤ M := by
      cases seqs with
      | nil => simp
      | cons a t =>
        have := hW a (List.mem_cons_self a t)
        simpa [this] using hWM
    unfold truncateSeqs
    rw [if_pos hcond]
  · intro hMW hne
    have hcond : ¬ (seqs.headD []).length ≤ M := by
      cases seqs with
      | nil => exact absurd rfl hne
      | cons a t =>
        have := hW a (List.mem_cons_self a t)
        simp only [List.headD_cons, this]
        omega
    refine ⟨by unfold truncateSeqs; rw [if_neg hcond]; simp, by simp, ?_, ?_⟩
    · intro r hr
      rcases List.mem_map.mp hr with ⟨r0, hr0, hrr⟩
      rw [← hrr, List.length_take, hW r0 hr0]
      omega
    · intro x hx
      rcases List.mem_map.mp hx with ⟨x0, hx0, hxx⟩
      rw [← hxx]
      exact min_le_right _ _

/-- Witness for C7: a collection of width 2 truncated to `M = 1` and a
collection of width 2 left unchanged by `M = 3`. -/
theorem c7_truncate_witness :
    ((2 : ℕ) ≤ 3 → truncateSeqs 3 [[4, 5]] (some [2]) (some [[true, false]]) =
      ([[4, 5]], some [2], some [[true, false]])) ∧
    ((1 : ℕ) < 2 → [[4, 5]] ≠ ([] : List (List ℤ)) →
      truncateSeqs 1 [[4, 5]] (some [2]) (some [[true, false]]) =
        ([[4, 5]].map (List.take 1),
         some ([2].map (fun x => min (max x 0) (1 : ℤ))),
         some ([[true, false]].map (List.take 1))) ∧
      ([[4, 5]].map (List.take 1)).length = [[4, 5]].length ∧
      (∀ r ∈ ([[4, 5]] : List (List ℤ)).map (List.take 1), r.length = 1) ∧
      (∀ x ∈ ([2] : List ℤ).map (fun x => min (max x 0) (1 : ℤ)), x ≤ (1 : ℤ))) :=
  ⟨(c7_truncate 3 2 [[4, 5]] [2] [[true, false]] (by decide)).1,
   (c7_truncate 1 2 [[4, 5]] [2] [[true, false]] (by decide)).2⟩

/-- C6: sorting the flat path sub-sequences by length descending and then
index-selecting with the ascending argsort of the sort order (the unsort of
lines 640–642) restores original flat order, both for the raw rows and for
any row-wise encoded version of them: output row `i` corresponds to input
row `i`. -/
theorem c6_sort_unsort {α β : Type} (da : α) (db : β) (f : α → β)
    (lens : List ℤ) (x : List α) (hx : x.length = lens.length) :
    indexSelect da (indexSelect da x (argsortDesc lens))
      (argsortAsc (argsortDesc lens)) = x ∧
    indexSelect db ((indexSelect da x (argsortDesc lens)).map f)
      (argsortAsc (argsortDesc lens)) = x.map f := by
  have hσ : (argsortDesc lens).Perm (List.range lens.length) := argsortDesc_perm lens
  constructor
  · exact unsort_id da (argsortDesc lens) lens.length hσ x hx
  · have hmapsel : (indexSelect da x (argsortDesc lens)).map f =
        indexSelect db (x.map f) (argsortDesc lens) := by
      unfold indexSelect
      rw [List.map_map]
      apply List.map_congr_left
      intro j hj
      have hjlt : j < lens.length := by
        have := (hσ.mem_iff).mp hj
        simpa using this
      have hjx : j < x.length := by omega
      have hjmf : j < (x.map f).length := by simpa using hjx
      simp only [Function.comp_apply]
      rw [List.getD_eq_getElem _ _ hjx, List.getD_eq_getElem _ _ hjmf,
        List.getElem_map]
    rw [hmapsel]
    exact unsort_id db (argsortDesc lens) lens.length hσ (x.map f)
      (by simpa using hx)

/-- Witness for C6 at a concrete length vector with ties and a concrete
row list. -/
theorem c6_sort_unsort_witness :
    indexSelect (0 : ℤ) (indexSelect 0 [10, 20, 30] (argsortDesc [2, 5, 5]))
      (argsortAsc (argsortDesc [2, 5, 5])) = [10, 20, 30] ∧
    indexSelect (0 : ℤ) ((indexSelect (0 : ℤ) [10, 20, 30]
        (argsortDesc [2, 5, 5])).map (fun t => t + 1))
      (argsortAsc (argsortDesc [2, 5, 5])) = [10, 20, 30].map (fun t => t + 1) :=
  c6_sort_unsort 0 0 (fun t => t + 1) [2, 5, 5] [10, 20, 30] (by decide)

/-- Counterexample for claim C1 as stated: a one-example batch that passes
the cross-stream validation, with one real instance (offset range
`[lo, hi) = [0, 1)`), whose fused vectors are `[2]` and `[4]`; the
aggregation loop outputs `[6]` — the sum of BOTH vectors (the virtual
trailing segment included) divided by `hi - lo = 1` — and not the
arithmetic mean `[2]` of the fused vectors in `[0, 1)`. -/
theorem c1_counterexample :
    code2seqValidationFails [[5, 7, 6]] [[8, 7, 9]] [[4, 3, 2]] 7 3 = false ∧
    splitInds [[5, 7, 6]] 7 = [0, 1] ∧
    code2seqFused exampleNet 128 128 7 3 1 [[5, 7, 6]] [3] [[8, 7, 9]] [3]
      [[4, 3, 2]] [3] = [[2], [4]] ∧
    code2seqForward exampleNet 128 128 7 3 1 [[5, 7, 6]] [3] [[8, 7, 9]] [3]
      [[4, 3, 2]] [3] = [[6]] ∧
    specMeanOfInstances 1 [[2], [4]] 0 1 = [2] ∧
    ([[6]] : List Vec) ≠ [[2]] := by
  have hfused : code2seqFused exampleNet 128 128 7 3 1 [[5, 7, 6]] [3]
      [[8, 7, 9]] [3] [[4, 3, 2]] [3] = [[2], [4]] := by
    have hs0 : splitSeq 1 [[5, 7, 6]] [3] (nonzeroPairs [[5, 7, 6]] 7)
        (splitInds [[5, 7, 6]] 7) = ([[5], [6]], [1, 1], [[true], [true]]) := by
      decide
    have he0 : splitSeq 1 [[8, 7, 9]] [3] (nonzeroPairs [[8, 7, 9]] 7)
        (splitInds [[5, 7, 6]] 7) = ([[8], [9]], [1, 1], [[true], [true]]) := by
      decide
    have hp0 : splitSeq 1 [[4, 3, 2]] [3] (nonzeroPairs [[4, 3, 2]] 3)
        (splitInds [[5, 7, 6]] 7) = ([[4], [2]], [1, 1], [[true], [true]]) := by
      decide
    have hts : truncateSeqs 128 [[5], [6]] none (some [[true], [true]]) =
        ([[5], [6]], none, some [[true], [true]]) := by decide
    have hte : truncateSeqs 128 [[8], [9]] none (some [[true], [true]]) =
        ([[8], [9]], none, some [[true], [true]]) := by decide
    have htp : truncateSeqs 128 [[4], [2]] (some [1, 1]) none =
        ([[4], [2]], some [1, 1], none) := by decide
    have hsums : List.zipWith (maskedSumRow exampleNet.leafEmbed 1) [[5], [6]]
        [[true], [true]] = [[0], [0]] := by
      norm_num [maskedSumRow, exampleNet, vadd, zeroVec]
    have hsume : List.zipWith (maskedSumRow exampleNet.leafEmbed 1) [[8], [9]]
        [[true], [true]] = [[0], [0]] := by
      norm_num [maskedSumRow, exampleNet, vadd, zeroVec]
    have hpe : ([[4], [2]] : List (List ℤ)).map (List.map exampleNet.pathEmbed) =
        [[[4]], [[2]]] := by decide
    have hso : argsortDesc [1, 1] = [0, 1] := by
      have hr : List.range 2 = [0, 1] := rfl
      unfold argsortDesc
      norm_num [hr, List.mergeSort]
    have hsl : indexSelect (0 : ℤ) [1, 1] [0, 1] = [1, 1] := by decide
    have hss : indexSelect ([] : List Vec) [[[4]], [[2]]] [0, 1] =
        [[[4]], [[2]]] := by decide
    have hlstm : (List.zip [[[(4 : ℚ)]], [[2]]] [(1 : ℤ), 1]).map
        (fun sle => exampleNet.lstm (sle.1.take sle.2.toNat)) =
        [[4, 0], [2, 0]] := by decide
    have hia : argsortAsc [0, 1] = [0, 1] := by
      have hr : List.range 2 = [0, 1] := rfl
      unfold argsortAsc
      norm_num [hr, List.mergeSort]
    have hho : indexSelect (zeroVec (2 * 1)) [[4, 0], [2, 0]] [0, 1] =
        [[4, 0], [2, 0]] := by decide
    have hz : List.zipWith (fun hv ab => exampleNet.fcT (hv ++ ab.1 ++ ab.2))
        [[4, 0], [2, 0]] (List.zip [[(0 : ℚ)], [0]] [[(0 : ℚ)], [0]]) =
        [[2], [4]] := by decide
    have hd : exampleNet.d = 1 := rfl
    simp only [code2seqFused, hd, hs0, he0, hp0, hts, hte, htp, Option.getD_some,
      hsums, hsume, hpe, hso, hsl, hss, hlstm, hia, hho, hz]
  refine ⟨by decide, by decide, hfused, ?_, ?_, by norm_num⟩
  · unfold code2seqForward
    rw [show code2seqValidationFails [[5, 7, 6]] [[8, 7, 9]] [[4, 3, 2]] 7 3 =
      false from by decide]
    simp only [Bool.false_eq_true, if_false]
    rw [hfused, show splitInds [[5, 7, 6]] 7 = [0, 1] from by decide]
    norm_num [aggregLoop, aggregAux, sliceSum, vdiv, vadd, zeroVec, exampleNet]
  · norm_num [specMeanOfInstances, sliceSum, vdiv, vadd, zeroVec]

/-- Claim C2: whenever some example's delimiter counts differ across the
three streams, or any one stream has no delimiter at all, `forward`
returns the identical zero vector of the configured embedding width for
every example in the batch — including internally consistent ones — and,
being total, raises no exception. -/
theorem c2_mismatch_sentinel (net : Code2SeqNet) (maxLeaf maxPath : ℕ)
    (dl dp padL : ℤ) (sl : List (List ℤ)) (slLens : List ℕ)
    (el : List (List ℤ)) (elLens : List ℕ)
    (pt : List (List ℤ)) (ptLens : List ℕ)
    (hBe : el.length = sl.length) (hBp : pt.length = sl.length)
    (hbad : (∃ i, i < sl.length ∧
        ¬(countDelim (sl.getD i []) dl = countDelim (el.getD i []) dl ∧
          countDelim (sl.getD i []) dl = countDelim (pt.getD i []) dp)) ∨
      nonzeroPairs sl dl = [] ∨ nonzeroPairs el dl = [] ∨
      nonzeroPairs pt dp = []) :
    code2seqForward net maxLeaf maxPath dl dp padL sl slLens el elLens pt ptLens =
      List.replicate sl.length (zeroVec net.d) := by
  have hval : code2seqValidationFails sl el pt dl dp = true := by
    simp only [code2seqValidationFails, Bool.or_eq_true, Bool.not_eq_true',
      decide_eq_false_iff_not, List.isEmpty_iff]
    rcases hbad with ⟨i, hi, hcnt⟩ | he | he | he
    · by_cases hse : countDelim (sl.getD i []) dl = countDelim (el.getD i []) dl
      · have hsp : countDelim (sl.getD i []) dl ≠ countDelim (pt.getD i []) dp :=
          fun h => hcnt ⟨hse, h⟩
        right
        intro hids
        apply hsp
        rw [← count_rowIds sl dl i hi, ← count_rowIds pt dp i (by omega), hids]
      · left; right
        intro hids
        apply hse
        rw [← count_rowIds sl dl i hi, ← count_rowIds el dl i (by omega), hids]
    · left; left; left; left; exact he
    · left; left; left; right; exact he
    · left; left; right; exact he
  unfold code2seqForward
  rw [hval]
  simp

/-- Witness for C2: example 0's start-leaf stream holds one delimiter while
its end-leaf stream holds none, so the batch degrades to the zero vector. -/
theorem c2_mismatch_sentinel_witness :
    code2seqForward exampleNet 128 128 7 3 1 [[7, 5]] [2] [[5, 5]] [2]
        [[3, 4]] [2] = List.replicate 1 (zeroVec 1) :=
  c2_mismatch_sentinel exampleNet 128 128 7 3 1 [[7, 5]] [2] [[5, 5]] [2]
    [[3, 4]] [2] (by decide) (by decide) (Or.inl ⟨0, by decide, by decide⟩)

/-- Claim C3: for a batch passing the cross-stream validation and an
example `i` whose offset range is empty (`si[i] = si[i+1]`, zero
delimiters), the aggregated output equals exactly the fused vector of that
example's single virtual trailing segment, selected through the `cur_max`
flat-index pointer at flat index `si[i] + i`; in particular it is nonzero
whenever that fused vector is. -/
theorem c3_zero_instance_fallback (net : Code2SeqNet) (maxLeaf maxPath : ℕ)
    (dl dp padL : ℤ) (sl : List (List ℤ)) (slLens : List ℕ)
    (el : List (List ℤ)) (elLens : List ℕ)
    (pt : List (List ℤ)) (ptLens : List ℕ) (i : ℕ)
    (hval : code2seqValidationFails sl el pt dl dp = false)
    (hi : i < sl.length)
    (heq : (splitInds sl dl).getD i 0 = (splitInds sl dl).getD (i + 1) 0) :
    (code2seqForward net maxLeaf maxPath dl dp padL sl slLens el elLens
        pt ptLens).getD i (zeroVec net.d) =
      (code2seqFused net maxLeaf maxPath dl dp padL sl slLens el elLens
        pt ptLens).getD ((splitInds sl dl).getD i 0 + i) (zeroVec net.d) ∧
    ((code2seqFused net maxLeaf maxPath dl dp padL sl slLens el elLens
        pt ptLens).getD ((splitInds sl dl).getD i 0 + i) (zeroVec net.d) ≠
          zeroVec net.d →
      (code2seqForward net maxLeaf maxPath dl dp padL sl slLens el elLens
        pt ptLens).getD i (zeroVec net.d) ≠ zeroVec net.d) := by
  have hfwd : code2seqForward net maxLeaf maxPath dl dp padL sl slLens el elLens
      pt ptLens =
      aggregLoop net.d (code2seqFused net maxLeaf maxPath dl dp padL sl slLens
        el elLens pt ptLens) (splitInds sl dl) sl.length := by
    unfold code2seqForward
    rw [hval]
    simp
  have hcm : (-1 : ℤ) = ((splitInds sl dl).getD 0 0 : ℤ) + ((0 : ℕ) : ℤ) - 1 := by
    rw [splitInds_getD_zero]
    norm_num
  have hmain := aggregAux_getD_of_eq net.d
    (code2seqFused net maxLeaf maxPath dl dp padL sl slLens el elLens pt ptLens)
    (splitInds sl dl) i sl.length 0 (-1) hi (by simpa using heq) hcm
  simp only [Nat.zero_add] at hmain
  have h1 : (code2seqForward net maxLeaf maxPath dl dp padL sl slLens el elLens
      pt ptLens).getD i (zeroVec net.d) =
      (code2seqFused net maxLeaf maxPath dl dp padL sl slLens el elLens
        pt ptLens).getD ((splitInds sl dl).getD i 0 + i) (zeroVec net.d) := by
    rw [hfwd]
    unfold aggregLoop
    exact hmain
  exact ⟨h1, fun hnz => by rw [h1]; exact hnz⟩

/-- Witness for C3: a two-example batch passing validation in which
example 1 has zero delimiters in all three streams. -/
theorem c3_zero_instance_fallback_witness :
    (code2seqForward exampleNet 128 128 7 3 1 [[5, 7, 6], [9, 9, 8]] [3, 3]
        [[8, 7, 9], [9, 9, 8]] [3, 3] [[4, 3, 2], [9, 9, 8]] [3, 3]).getD 1
        (zeroVec 1) =
      (code2seqFused exampleNet 128 128 7 3 1 [[5, 7, 6], [9, 9, 8]] [3, 3]
        [[8, 7, 9], [9, 9, 8]] [3, 3] [[4, 3, 2], [9, 9, 8]] [3, 3]).getD
        ((splitInds [[5, 7, 6], [9, 9, 8]] 7).getD 1 0 + 1) (zeroVec 1) ∧
    ((code2seqFused exampleNet 128 128 7 3 1 [[5, 7, 6], [9, 9, 8]] [3, 3]
        [[8, 7, 9], [9, 9, 8]] [3, 3] [[4, 3, 2], [9, 9, 8]] [3, 3]).getD
        ((splitInds [[5, 7, 6], [9, 9, 8]] 7).getD 1 0 + 1) (zeroVec 1) ≠
          zeroVec 1 →
      (code2seqForward exampleNet 128 128 7 3 1 [[5, 7, 6], [9, 9, 8]] [3, 3]
        [[8, 7, 9], [9, 9, 8]] [3, 3] [[4, 3, 2], [9, 9, 8]] [3, 3]).getD 1
        (zeroVec 1) ≠ zeroVec 1) :=
  c3_zero_instance_fallback exampleNet 128 128 7 3 1 [[5, 7, 6], [9, 9, 8]]
    [3, 3] [[8, 7, 9], [9, 9, 8]] [3, 3] [[4, 3, 2], [9, 9, 8]] [3, 3] 1
    (by decide) (by decide) (by decide)

/-- Claim C1 (amended): for a batch passing validation and an example `i`
with a non-empty offset range `[lo, hi)`, the aggregation loop emits the
sum of the `hi - lo + 1` fused vectors at flat indices `lo + i` through
`hi + i` inclusive — the `hi - lo` real instances AND the virtual trailing
segment — divided by `hi - lo` only; the value depends only on that
example's own fused vectors and offset entries. -/
theorem c1_amended (net : Code2SeqNet) (maxLeaf maxPath : ℕ)
    (dl dp padL : ℤ) (sl : List (List ℤ)) (slLens : List ℕ)
    (el : List (List ℤ)) (elLens : List ℕ)
    (pt : List (List ℤ)) (ptLens : List ℕ) (i : ℕ)
    (hval : code2seqValidationFails sl el pt dl dp = false)
    (hi : i < sl.length)
    (hne : (splitInds sl dl).getD i 0 ≠ (splitInds sl dl).getD (i + 1) 0) :
    (code2seqForward net maxLeaf maxPath dl dp padL sl slLens el elLens
        pt ptLens).getD i (zeroVec net.d) =
      vdiv (sliceSum net.d
          (code2seqFused net maxLeaf maxPath dl dp padL sl slLens el elLens
            pt ptLens)
          ((splitInds sl dl).getD i 0 + i)
          ((splitInds sl dl).getD (i + 1) 0 + i + 1))
        (((splitInds sl dl).getD (i + 1) 0 : ℚ) -
          ((splitInds sl dl).getD i 0 : ℚ)) := by
  have hfwd : code2seqForward net maxLeaf maxPath dl dp padL sl slLens el elLens
      pt ptLens =
      aggregLoop net.d (code2seqFused net maxLeaf maxPath dl dp padL sl slLens
        el elLens pt ptLens) (splitInds sl dl) sl.length := by
    unfold code2seqForward
    rw [hval]
    simp
  have hmain := aggregAux_getD_of_ne net.d
    (code2seqFused net maxLeaf maxPath dl dp padL sl slLens el elLens pt ptLens)
    (splitInds sl dl) i sl.length 0 (-1) hi (by simpa using hne)
  simp only [Nat.zero_add] at hmain
  rw [hfwd]
  unfold aggregLoop
  exact hmain

/-- Witness for the amended C1 at the concrete one-example batch. -/
theorem c1_amended_witness :
    (code2seqForward exampleNet 128 128 7 3 1 [[5, 7, 6]] [3] [[8, 7, 9]] [3]
        [[4, 3, 2]] [3]).getD 0 (zeroVec 1) =
      vdiv (sliceSum 1
          (code2seqFused exampleNet 128 128 7 3 1 [[5, 7, 6]] [3] [[8, 7, 9]]
            [3] [[4, 3, 2]] [3])
          ((splitInds [[5, 7, 6]] 7).getD 0 0 + 0)
          ((splitInds [[5, 7, 6]] 7).getD 1 0 + 0 + 1))
        (((splitInds [[5, 7, 6]] 7).getD 1 0 : ℚ) -
          ((splitInds [[5, 7, 6]] 7).getD 0 0 : ℚ)) :=
  c1_amended exampleNet 128 128 7 3 1 [[5, 7, 6]] [3] [[8, 7, 9]] [3]
    [[4, 3, 2]] [3] 0 (by decide) (by decide) (by decide)

/-- Claim C4 evaluated at a failing input (code bug): for the padded
sub-sequence `[5, 5, pad]` with true length 2 and pad symbol 1, the mask
produced by `_split_seq` is true at the two REAL positions and false at the
pad position — the opposite polarity of the specified "true at pad
positions" — and since `masked_fill_` zeroes embeddings where the mask is
true, the aggregator's masked sum is the zero vector instead of the sum
`[2]` of the first two token embeddings.  The commented-out lines 628–629
compute that intended sum, confirming the live code inverts the mask. -/
theorem c4_mask_polarity_evaluation :
    padMask 1 [[5, 5, 1]] = [[true, true, false]] ∧
    exampleNet.leafEmbed 1 = zeroVec 1 ∧
    maskedSumRow exampleNet.leafEmbed 1 [5, 5, 1] [true, true, false] = [0] ∧
    vadd (exampleNet.leafEmbed 5) (vadd (exampleNet.leafEmbed 5) (zeroVec 1)) =
      [2] ∧
    ([0] : Vec) ≠ [2] := by
  refine ⟨by decide, by decide, ?_, ?_, by norm_num⟩
  · norm_num [maskedSumRow, exampleNet, vadd, zeroVec]
  · norm_num [exampleNet, vadd, zeroVec]

/-- Counterexample for claim C5 as stated: in a two-example batch with one
delimiter per row, the offset index is `[0, 1, 2]`, but flat row
`index[1] = 1` of the per-instance tensor holds example 0's trailing
segment `[6]`, which is not one of example 1's sub-sequences `[8]`, `[9]`
— example 1's rows actually occupy `[index[1]+1, index[2]+2)`. -/
theorem c5_counterexample :
    splitInds [[5, 7, 6], [8, 7, 9]] 7 = [0, 1, 2] ∧
    (splitSeq 1 [[5, 7, 6], [8, 7, 9]] [3, 3]
      (nonzeroPairs [[5, 7, 6], [8, 7, 9]] 7)
      (splitInds [[5, 7, 6], [8, 7, 9]] 7)).1 = [[5], [6], [8], [9]] ∧
    rowSegs [8, 7, 9] 3 3 (delimPositionsRow [8, 7, 9] 7) = [[8], [9]] ∧
    ([[5], [6], [8], [9]] : List (List ℤ)).getD 1 [] = [6] ∧
    ([6] : List ℤ) ∉ ([[8], [9]] : List (List ℤ)) := by
  exact ⟨by decide, by decide, by decide, by decide, by decide⟩

/-- Counterexample for claim C8 as stated: the raw line `"a b c"` has only
one pipe-separated top-level field (fewer than 3), yet the converter keeps
it — the skip condition counts SPACE-separated fields — and writes
`src = "b"`, `trg = "a"` and empty leaf/path lines for it. -/
theorem c8_counterexample :
    (splitOnSep '|' (trimWs ("a b c").toList)).length = 1 ∧
    (1 : ℕ) < 3 ∧
    processLine ("a b c").toList =
      some (['b'], ['a'], ([] : List Char), ([] : List Char)) ∧
    (convertLines [("a b c").toList]).1 = [['b']] := by
  exact ⟨by decide, by decide, by decide, by decide⟩

/-- Claim C8 (amended): a raw line with fewer than 3 SPACE-separated
top-level fields is skipped entirely; a line with at least 3 is always
emitted, with exactly the path tuples having at least 3 pipe-separated
fields kept in its leaf and path outputs; no input raises (the converter is
total). -/
theorem c8_amended (line : List Char) :
    ((splitOnSep ' ' (trimWs line)).length < 3 → processLine line = none) ∧
    (3 ≤ (splitOnSep ' ' (trimWs line)).length →
      processLine line = some
        (joinSep ' ' (splitOnSep '|' ((splitOnSep ' ' (trimWs line)).getD 1 [])),
         joinSep ' ' (splitOnSep '|' ((splitOnSep ' ' (trimWs line)).getD 0 [])),
         joinSep ' ' ((keptTuples line).map leafOfTuple),
         joinSep ' ' ((keptTuples line).map pathOfTuple)) ∧
      ∀ ps ∈ keptTuples line, 3 ≤ ps.length) := by
  have hpt : ∀ (g : List (List Char) → List Char),
      ((splitOnSep ' ' (trimWs line)).drop 2).filterMap (fun p =>
        let ps := splitOnSep '|' (trimWs p)
        if ps.length < 3 then none else some (g ps)) =
      (keptTuples line).map g := by
    intro g
    have hcongr : ∀ p ∈ (splitOnSep ' ' (trimWs line)).drop 2,
        (let ps := splitOnSep '|' (trimWs p)
         if ps.length < 3 then none else some (g ps)) =
        ((fun q =>
          let ps := splitOnSep '|' (trimWs q)
          if ps.length < 3 then none else some ps) p).map g := by
      intro p hp
      by_cases hc : (splitOnSep '|' (trimWs p)).length < 3 <;> simp [hc]
    rw [List.filterMap_congr hcongr, filterMap_proj]
    rfl
  constructor
  · intro h
    unfold processLine
    rw [if_pos h]
  · intro h
    refine ⟨?_, keptTuples_ge3 line⟩
    unfold processLine
    rw [if_neg (Nat.not_lt.mpr h), hpt leafOfTuple, hpt pathOfTuple]

/-- Witness for the amended C8: a too-short line is skipped; a well-formed
line with one good tuple and one bad tuple is emitted with only the good
tuple kept. -/
theorem c8_amended_witness :
    processLine ("x y").toList = none ∧
    (processLine ("tg|t s|rc x|y|z q|r").toList = some
      (joinSep ' ' (splitOnSep '|'
        ((splitOnSep ' ' (trimWs ("tg|t s|rc x|y|z q|r").toList)).getD 1 [])),
       joinSep ' ' (splitOnSep '|'
        ((splitOnSep ' ' (trimWs ("tg|t s|rc x|y|z q|r").toList)).getD 0 [])),
       joinSep ' ' ((keptTuples ("tg|t s|rc x|y|z q|r").toList).map leafOfTuple),
       joinSep ' ' ((keptTuples ("tg|t s|rc x|y|z q|r").toList).map pathOfTuple)) ∧
      ∀ ps ∈ keptTuples ("tg|t s|rc x|y|z q|r").toList, 3 ≤ ps.length) :=
  ⟨(c8_amended ("x y").toList).1 (by decide),
   (c8_amended ("tg|t s|rc x|y|z q|r").toList).2 (by decide)⟩

/-- Partial sums over `range` are monotone in the range length. -/
theorem sum_range_map_mono (f : ℕ → ℕ) (a b : ℕ) (h : a ≤ b) :
    ((List.range a).map f).sum ≤ ((List.range b).map f).sum := by
  have hb : b = a + (b - a) := by omega
  rw [hb, List.range_add, List.map_append, List.sum_append]
  exact Nat.le_add_right _ _

/-- `getD` through `map` below the length. -/
theorem map_getD_lt {α β : Type} (f : α → β) (L : List α) (k : ℕ)
    (dflt : α) (dflt2 : β) (hk : k < L.length) :
    (L.map f).getD k dflt2 = f (L.getD k dflt) := by
  rw [List.getD_eq_getElem _ _ (by simpa using hk), List.getElem_map,
    List.getD_eq_getElem _ _ hk]

/-- Consecutive offset entries differ by exactly the row's delimiter
count. -/
theorem splitInds_getD_succ (m : List (List ℤ)) (dlm : ℤ) (i : ℕ)
    (hi : i < m.length) :
    (splitInds m dlm).getD (i + 1) 0 =
      (splitInds m dlm).getD i 0 + countDelim (m.getD i []) dlm := by
  rw [splitInds_getD m dlm (i + 1) (by omega),
    splitInds_getD m dlm i (Nat.le_of_lt hi), List.range_succ,
    List.map_append, List.sum_append]
  simp

/-- Claim C5 (amended): for a batch of `B` examples, the offset index has
length `B + 1` with entry `i` the cumulative delimiter (= instance) count
through example `i - 1`; but in the flat per-instance list the `B`
trailing segments are interleaved, so example `i`'s sub-sequences occupy
the shifted range starting at `index[i] + i`: entry `j` of that block
(`j ≤ countDelim`, the last being the trailing segment) sits at flat index
`index[i] + i + j`, both in the raw sub-sequence list and, padded, in the
tensor `_split_seq` returns; the total row count is `index[B] + B`, not
`index[B]`. -/
theorem c5_amended (m : List (List ℤ)) (lengths : List ℕ) (padL dlm : ℤ)
    (i j : ℕ) (hi : i < m.length)
    (hj : j ≤ countDelim (m.getD i []) dlm) :
    (splitInds m dlm).length = m.length + 1 ∧
    (splitInds m dlm).getD i 0 =
      ((List.range i).map (fun r => countDelim (m.getD r []) dlm)).sum ∧
    (splitSegsRaw m lengths (nonzeroPairs m dlm) (splitInds m dlm)).length =
      (splitInds m dlm).getD m.length 0 + m.length ∧
    (splitSegsRaw m lengths (nonzeroPairs m dlm) (splitInds m dlm)).getD
        ((splitInds m dlm).getD i 0 + i + j) [] =
      (rowSegs (m.getD i []) (m.headD []).length (lengths.getD i 0)
        (delimPositionsRow (m.getD i []) dlm)).getD j [] ∧
    (splitSeq padL m lengths (nonzeroPairs m dlm) (splitInds m dlm)).1.getD
        ((splitInds m dlm).getD i 0 + i + j) [] =
      padTo padL
        (segWidth (splitSegsRaw m lengths (nonzeroPairs m dlm) (splitInds m dlm)))
        ((rowSegs (m.getD i []) (m.headD []).length (lengths.getD i 0)
          (delimPositionsRow (m.getD i []) dlm)).getD j []) := by
  have hj2 : j < countDelim (m.getD i []) dlm + 1 := by omega
  have hraw := splitSegsRaw_getD m lengths dlm i j hi hj2
  have hlen := splitSegsRaw_length m lengths dlm
  have hidx : (splitInds m dlm).getD i 0 + i + j <
      (splitSegsRaw m lengths (nonzeroPairs m dlm) (splitInds m dlm)).length := by
    rw [hlen]
    have hsucc := splitInds_getD_succ m dlm i hi
    have hmono : (splitInds m dlm).getD (i + 1) 0 ≤
        (splitInds m dlm).getD m.length 0 := by
      rw [splitInds_getD m dlm (i + 1) (by omega),
        splitInds_getD m dlm m.length (Nat.le_refl _)]
      exact sum_range_map_mono _ _ _ (by omega)
    omega
  refine ⟨splitInds_length m dlm, splitInds_getD m dlm i (Nat.le_of_lt hi),
    hlen, hraw, ?_⟩
  have hpad : (splitSeq padL m lengths (nonzeroPairs m dlm)
      (splitInds m dlm)).1 =
      (splitSegsRaw m lengths (nonzeroPairs m dlm) (splitInds m dlm)).map
        (padTo padL (segWidth (splitSegsRaw m lengths (nonzeroPairs m dlm)
          (splitInds m dlm)))) := rfl
  rw [hpad, map_getD_lt _ _ _ [] [] hidx, hraw]

/-- Witness for the amended C5: the two-example batch of the C5
counterexample, read at example 1's real instance (`j = 0`). -/
theorem c5_amended_witness :
    (splitInds [[5, 7, 6], [8, 7, 9]] 7).length = [[5, 7, 6], [8, 7, 9]].length + 1 ∧
    (splitInds [[5, 7, 6], [8, 7, 9]] 7).getD 1 0 =
      ((List.range 1).map
        (fun r => countDelim ([[5, 7, 6], [8, 7, 9]].getD r []) 7)).sum ∧
    (splitSegsRaw [[5, 7, 6], [8, 7, 9]] [3, 3]
        (nonzeroPairs [[5, 7, 6], [8, 7, 9]] 7)
        (splitInds [[5, 7, 6], [8, 7, 9]] 7)).length =
      (splitInds [[5, 7, 6], [8, 7, 9]] 7).getD [[5, 7, 6], [8, 7, 9]].length 0 +
        [[5, 7, 6], [8, 7, 9]].length ∧
    (splitSegsRaw [[5, 7, 6], [8, 7, 9]] [3, 3]
        (nonzeroPairs [[5, 7, 6], [8, 7, 9]] 7)
        (splitInds [[5, 7, 6], [8, 7, 9]] 7)).getD
        ((splitInds [[5, 7, 6], [8, 7, 9]] 7).getD 1 0 + 1 + 0) [] =
      (rowSegs ([[5, 7, 6], [8, 7, 9]].getD 1 [])
        ([[5, 7, 6], [8, 7, 9]].headD []).length ([3, 3].getD 1 0)
        (delimPositionsRow ([[5, 7, 6], [8, 7, 9]].getD 1 []) 7)).getD 0 [] ∧
    (splitSeq 1 [[5, 7, 6], [8, 7, 9]] [3, 3]
        (nonzeroPairs [[5, 7, 6], [8, 7, 9]] 7)
        (splitInds [[5, 7, 6], [8, 7, 9]] 7)).1.getD
        ((splitInds [[5, 7, 6], [8, 7, 9]] 7).getD 1 0 + 1 + 0) [] =
      padTo 1
        (segWidth (splitSegsRaw [[5, 7, 6], [8, 7, 9]] [3, 3]
          (nonzeroPairs [[5, 7, 6], [8, 7, 9]] 7)
          (splitInds [[5, 7, 6], [8, 7, 9]] 7)))
        ((rowSegs ([[5, 7, 6], [8, 7, 9]].getD 1 [])
          ([[5, 7, 6], [8, 7, 9]].headD []).length ([3, 3].getD 1 0)
          (delimPositionsRow ([[5, 7, 6], [8, 7, 9]].getD 1 []) 7)).getD 0 []) :=
  c5_amended [[5, 7, 6], [8, 7, 9]] [3, 3] 1 7 1 0 (by decide) (by decide)
